import Mathlib

/-!
Verification of the pHash similarity kernel (CrossCorrelation.cpp).

The C++ kernel is embedded shallowly:

* byte vectors (std::vector of uint8_t) become List ℕ;
* float values and float vectors become exact rationals (ℚ) and List ℚ,
  so every accumulation is modelled exactly, in the same element order
  as the source loops;
* every element access is fallible: it goes through Option-returning
  indexing, and an out-of-bounds access poisons the whole result, so the
  theorems also certify that the source loops stay in bounds;
* the final std::sqrt becomes Real.sqrt, the only noncomputable step;
* 64-bit unsigned integers become ℕ with explicit reduction mod 2 ^ 64
  at the one operation that can overflow (the multiply in the SWAR
  population count).
-/

/-- The list of (x-index, y-index) pairs read by the two inner loops of
CrossCorrelation::GetCrossCorrelationForOffset, in source order: pass
j = 0 runs i over [0, n - offset) with yo = offset, pass j = 1 runs i
over [n - offset, n) with yo = offset - n.  The y-index is an integer,
as in the source, where yo is negative in the second pass.  (For
offset ≤ n this is exactly the index stream of the C++ loops; all
callers use offset < n.) -/
def accessList (n offset : ℕ) : List (ℕ × ℤ) :=
  (List.range (n - offset)).map (fun i => ((i, (i : ℤ) + offset) : ℕ × ℤ)) ++
    (List.range' (n - offset) offset).map
      (fun i => ((i, (i : ℤ) + offset - n) : ℕ × ℤ))

/-- One iteration of the accumulation loop body of
GetCrossCorrelationForOffset: dx = x[i], dy = y[i + yo],
num += dx*dy, denx += dx*dx, deny += dy*dy.  A failed (out-of-bounds)
access returns none and poisons the fold. -/
def accStep (x y : List ℚ) (s : Option (ℚ × ℚ × ℚ)) (p : ℕ × ℤ) :
    Option (ℚ × ℚ × ℚ) :=
  match s with
  | none => none
  | some (num, denx, deny) =>
    match x[p.1]?, (if 0 ≤ p.2 then y[p.2.toNat]? else none) with
    | some dx, some dy =>
        some (num + dx * dy, denx + dx * dx, deny + dy * dy)
    | some _, none => none
    | none, _ => none

/-- CrossCorrelation::GetCrossCorrelationForOffset: accumulate num,
denx, deny over the two straight-line passes, then return 0 when
num < 0 or denx == 0 or deny == 0, and num*num / (denx*deny)
otherwise. -/
def GetCrossCorrelationForOffset (x y : List ℚ) (offset : ℕ) : Option ℚ :=
  match (accessList x.length offset).foldl (accStep x y) (some (0, 0, 0)) with
  | none => none
  | some (num, denx, deny) =>
      some (if num < 0 ∨ denx = 0 ∨ deny = 0 then 0
            else num * num / (denx * deny))

/-- Modelled from the spec: the index stream of the Offset Correlation
Kernel written with a per-element modulus, i ∈ [0, n) reading
y[(i + offset) mod n].  This is the comparison point for the
refinement claim about the two straight-line passes. -/
def accessListMod (n offset : ℕ) : List (ℕ × ℤ) :=
  (List.range n).map (fun i => (i, (((i + offset) % n : ℕ) : ℤ)))

/-- Modelled from the spec: the Offset Correlation Kernel with the
cyclic access realized by a per-element modulus instead of the two
straight-line passes of the source. -/
def GetCrossCorrelationForOffsetSpec (x y : List ℚ) (offset : ℕ) : Option ℚ :=
  match (accessListMod x.length offset).foldl (accStep x y) (some (0, 0, 0)) with
  | none => none
  | some (num, denx, deny) =>
      some (if num < 0 ∨ denx = 0 ∨ deny = 0 then 0
            else num * num / (denx * deny))

/-- The num accumulator as the spec writes it: sum over i ∈ [0, n) of
x[i] * y[(i + d) mod n], with n the length of x. -/
def numSum (x y : List ℚ) (d : ℕ) : ℚ :=
  ((List.range x.length).map
    (fun i => x.getD i 0 * y.getD ((i + d) % x.length) 0)).sum

/-- The denx accumulator as the spec writes it: sum of x[i] * x[i]. -/
def denxSum (x : List ℚ) : ℚ :=
  ((List.range x.length).map (fun i => x.getD i 0 * x.getD i 0)).sum

/-- The deny accumulator as the spec writes it: sum of squares of the
cyclically shifted y samples. -/
def denySum (x y : List ℚ) (d : ℕ) : ℚ :=
  ((List.range x.length).map
    (fun i => y.getD ((i + d) % x.length) 0 * y.getD ((i + d) % x.length) 0)).sum

/-- The value of one offset of the kernel, written with the three
closed-form accumulators. -/
def offsetValue (x y : List ℚ) (d : ℕ) : ℚ :=
  if numSum x y d < 0 ∨ denxSum x = 0 ∨ denySum x y d = 0 then 0
  else numSum x y d * numSum x y d / (denxSum x * denySum x y d)

/-- The offset sweep of CrossCorrelation::GetCrossCorrelationCore
(float overload): fold max over d ∈ [0, n) of the per-offset kernel,
starting from 0, before the final square root. -/
def maxOffsets (x y : List ℚ) : Option ℚ :=
  (List.range x.length).foldl
    (fun acc d =>
      match acc, GetCrossCorrelationForOffset x y d with
      | some m, some v => some (max m v)
      | some _, none => none
      | none, _ => none)
    (some 0)

/-- CrossCorrelation::GetCrossCorrelationCore (float overload): the
square root of the maximum per-offset value. -/
noncomputable def GetCrossCorrelationCoreFloats (x y : List ℚ) : Option ℝ :=
  (maxOffsets x y).map (fun m => Real.sqrt (m : ℝ))

/-- The integer sum of the first len samples of a byte vector, as
computed by the first loop of the byte-level GetCrossCorrelationCore. -/
def byteSum (l : List ℕ) (len : ℕ) : ℕ :=
  (l.take len).sum

/-- The single-precision mean meanX = sumX / (float)length, modelled
exactly in ℚ.  (For length = 0 the source performs a float division by
zero giving NaN; the rational model yields 0.  Neither value ever
reaches the result, because the offset sweep is then empty.) -/
def meanOf (l : List ℕ) (len : ℕ) : ℚ :=
  (byteSum l len : ℚ) / (len : ℚ)

/-- The mean-subtracted working copy fx[i] = x[i] - meanX built by the
second loop of the byte-level GetCrossCorrelationCore. -/
def centered (l : List ℕ) (len : ℕ) : List ℚ :=
  (l.take len).map (fun (u : ℕ) => (u : ℚ) - meanOf l len)

/-- CrossCorrelation::GetCrossCorrelationCore (byte overload): check
the asserted preconditions length ≤ |x| and length ≤ |y| (a violated
assert is modelled as none), compute the means, build the
mean-subtracted float vectors, and hand off to the float core. -/
noncomputable def GetCrossCorrelationCore (x y : List ℕ) (len : ℕ) : Option ℝ :=
  if len ≤ x.length ∧ len ≤ y.length then
    GetCrossCorrelationCoreFloats (centered x len) (centered y len)
  else none

/-- CrossCorrelation::GetCrossCorrelation: run the byte core on the
common prefix of length min(|a|, |b|). -/
noncomputable def GetCrossCorrelation (a b : List ℕ) : Option ℝ :=
  GetCrossCorrelationCore a b (min a.length b.length)

/-- The denominators of the divisions executed by one call of
GetCrossCorrelationForOffset: the ternary guards the single division,
so a denominator is recorded exactly when the else branch runs. -/
def offsetDivisors (x y : List ℚ) (d : ℕ) : List ℚ :=
  match (accessList x.length d).foldl (accStep x y) (some (0, 0, 0)) with
  | none => []
  | some (num, denx, deny) =>
      if num < 0 ∨ denx = 0 ∨ deny = 0 then [] else [denx * deny]

/-- The denominators of every division executed during one call of
GetCrossCorrelation, in execution order: the two unguarded mean
divisions by the common length, then the guarded kernel division of
each offset. -/
def crossCorrelationDivisors (a b : List ℕ) : List ℚ :=
  ((min a.length b.length : ℕ) : ℚ) :: ((min a.length b.length : ℕ) : ℚ) ::
    ((List.range (min a.length b.length)).map
      (fun d => offsetDivisors (centered a (min a.length b.length))
        (centered b (min a.length b.length)) d)).flatten

theorem foldl_accStep_eq (x y : List ℚ) (ps : List (ℕ × ℤ)) :
    ∀ s : ℚ × ℚ × ℚ,
      (∀ p ∈ ps, p.1 < x.length ∧ 0 ≤ p.2 ∧ p.2 < (y.length : ℤ)) →
      ps.foldl (accStep x y) (some s) =
        some (s.1 + (ps.map (fun p => x.getD p.1 0 * y.getD p.2.toNat 0)).sum,
              s.2.1 + (ps.map (fun p => x.getD p.1 0 * x.getD p.1 0)).sum,
              s.2.2 + (ps.map
                (fun p => y.getD p.2.toNat 0 * y.getD p.2.toNat 0)).sum) := by
  induction ps with
  | nil => intro s _; simp
  | cons p ps ih =>
    intro s h
    obtain ⟨h1, h2, h3⟩ := h p (List.mem_cons_self p ps)
    have hy : p.2.toNat < y.length := by omega
    have hstep : accStep x y (some s) p =
        some (s.1 + x.getD p.1 0 * y.getD p.2.toNat 0,
              s.2.1 + x.getD p.1 0 * x.getD p.1 0,
              s.2.2 + y.getD p.2.toNat 0 * y.getD p.2.toNat 0) := by
      simp only [accStep, if_pos h2, List.getElem?_eq_getElem h1,
        List.getElem?_eq_getElem hy]
      simp [List.getD_eq_getElem?_getD, List.getElem?_eq_getElem h1,
        List.getElem?_eq_getElem hy]
    rw [List.foldl_cons, hstep,
      ih _ (fun q hq => h q (List.mem_cons_of_mem p hq))]
    simp [add_assoc]

theorem accessList_eq_mod (n offset : ℕ) (h : offset < n) :
    accessList n offset = accessListMod n offset := by
  have hsplit : List.range n =
      List.range (n - offset) ++ (List.range offset).map ((n - offset) + ·) := by
    rw [← List.range_add]; congr 1; omega
  rw [accessListMod, hsplit, List.map_append, List.map_map, accessList,
    List.range'_eq_map_range, List.map_map]
  congr 1
  · apply List.map_congr_left
    intro i hi
    rw [List.mem_range] at hi
    have : (i + offset) % n = i + offset := Nat.mod_eq_of_lt (by omega)
    simp only [this, Prod.mk.injEq]
    exact ⟨trivial, by omega⟩
  · apply List.map_congr_left
    intro i hi
    rw [List.mem_range] at hi
    have : (n - offset + i + offset) % n = i := by
      have h1 : n - offset + i + offset = n + i := by omega
      rw [h1, Nat.add_mod_left, Nat.mod_eq_of_lt (by omega)]
    simp only [Function.comp, this, Prod.mk.injEq]
    exact ⟨trivial, by omega⟩

theorem accessListMod_bounds (x y : List ℚ) (d : ℕ) (hxy : x.length = y.length)
    (hd : d < x.length) :
    ∀ p ∈ accessListMod x.length d,
      p.1 < x.length ∧ 0 ≤ p.2 ∧ p.2 < (y.length : ℤ) := by
  intro p hp
  rw [accessListMod, List.mem_map] at hp
  obtain ⟨i, hi, rfl⟩ := hp
  rw [List.mem_range] at hi
  refine ⟨hi, by positivity, ?_⟩
  have : (i + d) % x.length < x.length := Nat.mod_lt _ (by omega)
  omega

theorem forOffset_eq_value (x y : List ℚ) (d : ℕ) (hxy : x.length = y.length)
    (hd : d < x.length) :
    GetCrossCorrelationForOffset x y d = some (offsetValue x y d) := by
  rw [GetCrossCorrelationForOffset, accessList_eq_mod _ _ hd,
    foldl_accStep_eq x y _ (0, 0, 0) (accessListMod_bounds x y d hxy hd)]
  simp only [accessListMod, List.map_map, Function.comp_def, Int.toNat_natCast,
    zero_add, offsetValue, numSum, denxSum, denySum]

/-- C1: for equal-length vectors x and y of length n and an offset
d ∈ [0, n), the Offset Correlation Kernel returns 0 when num < 0 or
denx = 0 or deny = 0, and num*num / (denx*deny) otherwise, where the
accumulators are the cyclic sums num = Σ x[i]·y[(i+d) mod n],
denx = Σ x[i]², deny = Σ y[(i+d) mod n]². -/
theorem c1_offset_kernel_formula (x y : List ℚ) (n d : ℕ)
    (hx : x.length = n) (hy : y.length = n) (hd : d < n) :
    GetCrossCorrelationForOffset x y d =
      some (if numSum x y d < 0 ∨ denxSum x = 0 ∨ denySum x y d = 0 then 0
            else numSum x y d * numSum x y d / (denxSum x * denySum x y d)) := by
  rw [forOffset_eq_value x y d (by omega) (by omega), offsetValue]

theorem c1_offset_kernel_formula_witness :
    GetCrossCorrelationForOffset [1, 2] [3, 4] 1 =
      some (if numSum [1, 2] [3, 4] 1 < 0 ∨ denxSum [1, 2] = 0 ∨
              denySum [1, 2] [3, 4] 1 = 0 then 0
            else numSum [1, 2] [3, 4] 1 * numSum [1, 2] [3, 4] 1 /
              (denxSum [1, 2] * denySum [1, 2] [3, 4] 1)) :=
  c1_offset_kernel_formula [1, 2] [3, 4] 2 1 rfl rfl (by decide)

/-- C8: for equal-length vectors and d ∈ [0, n), the two straight-line
passes of the source kernel touch exactly the same (x-index, y-index)
stream, in the same order, as the modulus-based definition, and hence
the kernel computes the same result as the modulus-based kernel. -/
theorem c8_two_pass_eq_mod (x y : List ℚ) (d : ℕ) (_hxy : x.length = y.length)
    (hd : d < x.length) :
    accessList x.length d = accessListMod x.length d ∧
    GetCrossCorrelationForOffset x y d = GetCrossCorrelationForOffsetSpec x y d := by
  refine ⟨accessList_eq_mod _ _ hd, ?_⟩
  rw [GetCrossCorrelationForOffset, GetCrossCorrelationForOffsetSpec,
    accessList_eq_mod _ _ hd]

theorem c8_two_pass_eq_mod_witness :
    accessList (List.length ([1, 2, 3] : List ℚ)) 2 =
      accessListMod (List.length ([1, 2, 3] : List ℚ)) 2 ∧
    GetCrossCorrelationForOffset [1, 2, 3] [4, 5, 6] 2 =
      GetCrossCorrelationForOffsetSpec [1, 2, 3] [4, 5, 6] 2 :=
  c8_two_pass_eq_mod [1, 2, 3] [4, 5, 6] 2 rfl (by decide)

/-- C10: for equal-length vectors and d ∈ [0, n), every access of the
two inner loops is in bounds, and the Option-returning kernel never
takes its out-of-bounds branch. -/
theorem c10_kernel_accesses_in_bounds (x y : List ℚ) (d : ℕ)
    (hxy : x.length = y.length) (hd : d < x.length) :
    (∀ p ∈ accessList x.length d,
      p.1 < x.length ∧ 0 ≤ p.2 ∧ p.2 < (y.length : ℤ)) ∧
    (GetCrossCorrelationForOffset x y d).isSome := by
  constructor
  · rw [accessList_eq_mod _ _ hd]
    exact accessListMod_bounds x y d hxy hd
  · rw [forOffset_eq_value x y d hxy hd]; rfl

theorem c10_kernel_accesses_in_bounds_witness :
    (∀ p ∈ accessList (List.length ([1, 2, 3] : List ℚ)) 1,
      p.1 < List.length ([1, 2, 3] : List ℚ) ∧ 0 ≤ p.2 ∧
        p.2 < (List.length ([4, 5, 6] : List ℚ) : ℤ)) ∧
    (GetCrossCorrelationForOffset [1, 2, 3] [4, 5, 6] 1).isSome :=
  c10_kernel_accesses_in_bounds [1, 2, 3] [4, 5, 6] 1 rfl (by decide)

/-- The maximum tracked by the offset sweep, as a total rational fold. -/
def foldMax (x y : List ℚ) : ℚ :=
  (List.range x.length).foldl (fun m d => max m (offsetValue x y d)) 0

theorem foldl_max_init_le (f : ℕ → ℚ) (ds : List ℕ) :
    ∀ m : ℚ, m ≤ ds.foldl (fun m d => max m (f d)) m := by
  induction ds with
  | nil => intro m; exact le_refl m
  | cons a t ih =>
    intro m
    exact le_trans (le_max_left m (f a)) (ih (max m (f a)))

theorem foldl_max_le (f : ℕ → ℚ) (ds : List ℕ) (B : ℚ)
    (hB : ∀ d ∈ ds, f d ≤ B) :
    ∀ m : ℚ, m ≤ B → ds.foldl (fun m d => max m (f d)) m ≤ B := by
  induction ds with
  | nil => intro m hm; exact hm
  | cons a t ih =>
    intro m hm
    exact ih (fun d hd => hB d (List.mem_cons_of_mem a hd)) _
      (max_le hm (hB a (List.mem_cons_self a t)))

theorem le_foldl_max (f : ℕ → ℚ) (ds : List ℕ) (d : ℕ) (hd : d ∈ ds) :
    ∀ m : ℚ, f d ≤ ds.foldl (fun m d => max m (f d)) m := by
  induction ds with
  | nil => cases hd
  | cons a t ih =>
    intro m
    rw [List.foldl_cons]
    rcases List.mem_cons.mp hd with h | h
    · subst h
      exact le_trans (le_max_right m (f d)) (foldl_max_init_le f t _)
    · exact ih h _

theorem maxOffsets_eq (x y : List ℚ) (hxy : x.length = y.length) :
    maxOffsets x y = some (foldMax x y) := by
  rw [maxOffsets, foldMax]
  have key : ∀ ds : List ℕ, (∀ d ∈ ds, d < x.length) → ∀ m : ℚ,
      ds.foldl
        (fun acc d =>
          match acc, GetCrossCorrelationForOffset x y d with
          | some m, some v => some (max m v)
          | some _, none => none
          | none, _ => none)
        (some m) =
      some (ds.foldl (fun m d => max m (offsetValue x y d)) m) := by
    intro ds
    induction ds with
    | nil => intro _ m; rfl
    | cons a t ih =>
      intro h m
      rw [List.foldl_cons, List.foldl_cons,
        forOffset_eq_value x y a hxy (h a (List.mem_cons_self a t))]
      exact ih (fun d hd => h d (List.mem_cons_of_mem a hd)) _
  exact key _ (fun d hd => List.mem_range.mp hd) 0

theorem listSum_map_range (f : ℕ → ℚ) (n : ℕ) :
    ((List.range n).map f).sum = ∑ i ∈ Finset.range n, f i := by
  induction n with
  | zero => rfl
  | succ n ih =>
    rw [List.range_succ, List.map_append, List.sum_append,
      Finset.sum_range_succ, ih]
    simp

theorem denxSum_nonneg (x : List ℚ) : 0 ≤ denxSum x := by
  apply List.sum_nonneg
  intro q hq
  rw [List.mem_map] at hq
  obtain ⟨i, _, rfl⟩ := hq
  exact mul_self_nonneg _

theorem denySum_nonneg (x y : List ℚ) (d : ℕ) : 0 ≤ denySum x y d := by
  apply List.sum_nonneg
  intro q hq
  rw [List.mem_map] at hq
  obtain ⟨i, _, rfl⟩ := hq
  exact mul_self_nonneg _

theorem num_sq_le_den_mul_den (x y : List ℚ) (d : ℕ) :
    numSum x y d * numSum x y d ≤ denxSum x * denySum x y d := by
  have cs := Finset.sum_mul_sq_le_sq_mul_sq (Finset.range x.length)
    (fun i => x.getD i 0) (fun i => y.getD ((i + d) % x.length) 0)
  rw [numSum, denxSum, denySum, listSum_map_range, listSum_map_range,
    listSum_map_range]
  calc
    (∑ i ∈ Finset.range x.length, x.getD i 0 * y.getD ((i + d) % x.length) 0) *
        (∑ i ∈ Finset.range x.length, x.getD i 0 * y.getD ((i + d) % x.length) 0) =
        (∑ i ∈ Finset.range x.length,
          x.getD i 0 * y.getD ((i + d) % x.length) 0) ^ 2 := by ring
    _ ≤ (∑ i ∈ Finset.range x.length, x.getD i 0 ^ 2) *
        ∑ i ∈ Finset.range x.length, y.getD ((i + d) % x.length) 0 ^ 2 := cs
    _ = (∑ i ∈ Finset.range x.length, x.getD i 0 * x.getD i 0) *
        ∑ i ∈ Finset.range x.length,
          y.getD ((i + d) % x.length) 0 * y.getD ((i + d) % x.length) 0 := by
      congr 1 <;> exact Finset.sum_congr rfl (fun i _ => sq _)

theorem offsetValue_nonneg (x y : List ℚ) (d : ℕ) : 0 ≤ offsetValue x y d := by
  rw [offsetValue]
  split
  · exact le_refl 0
  · exact div_nonneg (mul_self_nonneg _)
      (mul_nonneg (denxSum_nonneg x) (denySum_nonneg x y d))

theorem offsetValue_le_one (x y : List ℚ) (d : ℕ) : offsetValue x y d ≤ 1 := by
  rw [offsetValue]
  split
  · exact zero_le_one
  · rename_i hguard
    push_neg at hguard
    obtain ⟨-, hdx, hdy⟩ := hguard
    have hx : 0 < denxSum x := lt_of_le_of_ne (denxSum_nonneg x) (Ne.symm hdx)
    have hy : 0 < denySum x y d :=
      lt_of_le_of_ne (denySum_nonneg x y d) (Ne.symm hdy)
    rw [div_le_one (mul_pos hx hy)]
    exact num_sq_le_den_mul_den x y d

theorem foldMax_nonneg (x y : List ℚ) : 0 ≤ foldMax x y :=
  foldl_max_init_le _ _ 0

theorem foldMax_le_one (x y : List ℚ) : foldMax x y ≤ 1 :=
  foldl_max_le _ _ 1 (fun d _ => offsetValue_le_one x y d) 0 zero_le_one

theorem centered_length (l : List ℕ) (len : ℕ) (h : len ≤ l.length) :
    (centered l len).length = len := by
  rw [centered, List.length_map, List.length_take]
  omega

theorem getCrossCorrelation_eq_sqrt (a b : List ℕ) :
    GetCrossCorrelation a b =
      some (Real.sqrt ((foldMax (centered a (min a.length b.length))
        (centered b (min a.length b.length)) : ℚ) : ℝ)) := by
  rw [GetCrossCorrelation, GetCrossCorrelationCore,
    if_pos ⟨Nat.min_le_left _ _, Nat.min_le_right _ _⟩,
    GetCrossCorrelationCoreFloats,
    maxOffsets_eq _ _ (by
      rw [centered_length a _ (Nat.min_le_left _ _),
        centered_length b _ (Nat.min_le_right _ _)])]
  rfl

/-- C4: for all byte inputs the cross-correlation is a real number
(hence finite), non-negative, and at most 1; in particular it is at
most 1 + ε for any positive tolerance ε. -/
theorem c4_result_in_unit_range (a b : List ℕ) :
    ∃ r : ℝ, GetCrossCorrelation a b = some r ∧ 0 ≤ r ∧ r ≤ 1 := by
  refine ⟨_, getCrossCorrelation_eq_sqrt a b, Real.sqrt_nonneg _, ?_⟩
  rw [show (1 : ℝ) = Real.sqrt 1 from (Real.sqrt_one).symm]
  apply Real.sqrt_le_sqrt
  exact_mod_cast foldMax_le_one _ _

/-- C6: when the common length min(|a|, |b|) is zero (in particular for
two empty sequences), the cross-correlation returns 0. -/
theorem c6_empty_returns_zero (a b : List ℕ)
    (h : min a.length b.length = 0) : GetCrossCorrelation a b = some 0 := by
  rw [getCrossCorrelation_eq_sqrt a b, h]
  have hz : foldMax (centered a 0) (centered b 0) = 0 := by
    simp [foldMax, centered]
  rw [hz]
  simp

theorem c6_empty_returns_zero_witness :
    GetCrossCorrelation [] [] = some 0 :=
  c6_empty_returns_zero [] [] rfl

theorem take_eq_replicate_of_const (l : List ℕ) (n : ℕ) (hn : n ≤ l.length)
    (c : ℕ) (hc : ∀ i < n, l.getD i 0 = c) :
    l.take n = List.replicate n c := by
  rw [List.eq_replicate_iff]
  refine ⟨by rw [List.length_take]; omega, ?_⟩
  intro b hb
  obtain ⟨i, hi, rfl⟩ := List.mem_iff_getElem.mp hb
  have hlen : i < n := by
    have := hi
    rw [List.length_take] at this
    omega
  have hil : i < l.length := by omega
  rw [List.getElem_take]
  have := hc i hlen
  rwa [List.getD_eq_getElem?_getD, List.getElem?_eq_getElem hil,
    Option.getD_some] at this

theorem meanOf_const (l : List ℕ) (n : ℕ) (hn : n ≤ l.length) (hn0 : n ≠ 0)
    (c : ℕ) (hc : ∀ i < n, l.getD i 0 = c) : meanOf l n = (c : ℚ) := by
  rw [meanOf, byteSum, take_eq_replicate_of_const l n hn c hc,
    List.sum_replicate, smul_eq_mul]
  push_cast
  rw [mul_div_cancel_left₀ _ (show (n : ℚ) ≠ 0 by exact_mod_cast hn0)]

theorem centered_const (l : List ℕ) (n : ℕ) (hn : n ≤ l.length) (hn0 : n ≠ 0)
    (c : ℕ) (hc : ∀ i < n, l.getD i 0 = c) :
    centered l n = List.replicate n 0 := by
  rw [centered, take_eq_replicate_of_const l n hn c hc, List.map_replicate,
    meanOf_const l n hn hn0 c hc]
  simp

theorem getD_replicate_zero (n i : ℕ) :
    (List.replicate n (0 : ℚ)).getD i 0 = 0 := by
  rw [List.getD_eq_getElem?_getD]
  rcases lt_or_ge i n with h | h
  · rw [List.getElem?_eq_getElem (by simpa using h)]
    simp
  · rw [List.getElem?_eq_none (by simpa using h)]
    rfl

theorem denxSum_replicate_zero (n : ℕ) :
    denxSum (List.replicate n (0 : ℚ)) = 0 := by
  rw [denxSum]
  apply List.sum_eq_zero
  intro q hq
  rw [List.mem_map] at hq
  obtain ⟨i, _, rfl⟩ := hq
  rw [getD_replicate_zero]
  ring

theorem denySum_replicate_zero (x : List ℚ) (n d : ℕ) :
    denySum x (List.replicate n (0 : ℚ)) d = 0 := by
  rw [denySum]
  apply List.sum_eq_zero
  intro q hq
  rw [List.mem_map] at hq
  obtain ⟨i, _, rfl⟩ := hq
  rw [getD_replicate_zero]
  ring

theorem foldMax_eq_zero (x y : List ℚ)
    (h : ∀ d, offsetValue x y d = 0) : foldMax x y = 0 :=
  le_antisymm
    (foldl_max_le _ _ 0 (fun d _ => le_of_eq (h d)) 0 (le_refl 0))
    (foldMax_nonneg x y)

theorem const_prefix_zero (a b : List ℕ)
    (h : (∀ i < min a.length b.length, a.getD i 0 = a.getD 0 0) ∨
         (∀ i < min a.length b.length, b.getD i 0 = b.getD 0 0)) :
    GetCrossCorrelation a b = some 0 := by
  rcases Nat.eq_zero_or_pos (min a.length b.length) with hn0 | hn0
  · exact c6_empty_returns_zero a b hn0
  rw [getCrossCorrelation_eq_sqrt a b]
  set n := min a.length b.length with hn
  have hz : foldMax (centered a n) (centered b n) = 0 := by
    apply foldMax_eq_zero
    intro d
    rcases h with hca | hcb
    · have : centered a n = List.replicate n 0 :=
        centered_const a n (Nat.min_le_left _ _) (by omega) _ hca
      rw [this, offsetValue, if_pos (Or.inr (Or.inl (denxSum_replicate_zero n)))]
    · have : centered b n = List.replicate n 0 :=
        centered_const b n (Nat.min_le_right _ _) (by omega) _ hcb
      rw [this, offsetValue,
        if_pos (Or.inr (Or.inr (denySum_replicate_zero _ n d)))]
  rw [hz]
  simp

/-- C5: if a or b is constant over the common prefix, the
cross-correlation is 0: the corresponding mean-subtracted vector is
identically zero, so one denominator of every offset vanishes and the
kernel returns 0 everywhere. -/
theorem c5_constant_input_zero (a b : List ℕ)
    (h : (∀ i < min a.length b.length, a.getD i 0 = a.getD 0 0) ∨
         (∀ i < min a.length b.length, b.getD i 0 = b.getD 0 0)) :
    GetCrossCorrelation a b = some 0 :=
  const_prefix_zero a b h

theorem c5_constant_input_zero_witness :
    GetCrossCorrelation [5, 5, 5, 5] [1, 2, 3, 4] = some 0 :=
  c5_constant_input_zero [5, 5, 5, 5] [1, 2, 3, 4] (Or.inl (by decide))

theorem centered_getD (l : List ℕ) (n i : ℕ) (hi : i < n) (hn : n ≤ l.length) :
    (centered l n).getD i 0 = ((l.getD i 0 : ℕ) : ℚ) - meanOf l n := by
  have hil : i < l.length := by omega
  have hit : i < (l.take n).length := by rw [List.length_take]; omega
  have him : i < (centered l n).length := by rw [centered_length l n hn]; omega
  rw [List.getD_eq_getElem?_getD, List.getElem?_eq_getElem him, Option.getD_some,
    List.getD_eq_getElem?_getD, List.getElem?_eq_getElem hil, Option.getD_some]
  simp [centered, List.getElem_take]

theorem numSum_self_zero (x : List ℚ) : numSum x x 0 = denxSum x := by
  rw [numSum, denxSum]
  apply congrArg List.sum
  apply List.map_congr_left
  intro i hi
  rw [List.mem_range] at hi
  rw [Nat.add_zero, Nat.mod_eq_of_lt hi]

theorem denySum_self_zero (x : List ℚ) : denySum x x 0 = denxSum x := by
  rw [denySum, denxSum]
  apply congrArg List.sum
  apply List.map_congr_left
  intro i hi
  rw [List.mem_range] at hi
  rw [Nat.add_zero, Nat.mod_eq_of_lt hi]

theorem denxSum_pos (x : List ℚ) (i : ℕ) (hi : i < x.length)
    (hne : x.getD i 0 ≠ 0) : 0 < denxSum x := by
  rw [denxSum, listSum_map_range]
  exact Finset.sum_pos' (fun j _ => mul_self_nonneg _)
    ⟨i, Finset.mem_range.mpr hi, mul_self_pos.mpr hne⟩

theorem offsetValue_self (x : List ℚ) (h : 0 < denxSum x) :
    offsetValue x x 0 = 1 := by
  rw [offsetValue, numSum_self_zero, denySum_self_zero,
    if_neg (by
      simp only [not_or]
      exact ⟨not_lt.mpr h.le, ne_of_gt h, ne_of_gt h⟩)]
  exact div_self (ne_of_gt (mul_pos h h))

/-- C2: the self-correlation of a non-empty byte sequence is exactly 0
when the sequence is constant, and exactly 1 otherwise (hence within
any positive tolerance of 1.0, in particular 1e-6): at offset 0 the
three accumulators coincide and the ratio is 1, and no offset exceeds
1 by the Cauchy-Schwarz inequality. -/
theorem c2_self_correlation (a : List ℕ) (hne : a ≠ []) :
    ((∀ i < a.length, a.getD i 0 = a.getD 0 0) →
      GetCrossCorrelation a a = some 0) ∧
    (¬(∀ i < a.length, a.getD i 0 = a.getD 0 0) →
      GetCrossCorrelation a a = some 1) := by
  constructor
  · intro hconst
    exact const_prefix_zero a a (Or.inl (fun i hi => hconst i (by omega)))
  · intro hnc
    rw [getCrossCorrelation_eq_sqrt a a, Nat.min_self]
    set n := a.length with hn
    have hn0 : 0 < n := List.length_pos.mpr hne
    have hlen : (centered a n).length = n := centered_length a n (le_refl _)
    have hex : ∃ i, i < n ∧ (centered a n).getD i 0 ≠ 0 := by
      by_contra hall
      push_neg at hall
      apply hnc
      intro i hi
      have h1 : ((a.getD i 0 : ℕ) : ℚ) - meanOf a n = 0 := by
        rw [← centered_getD a n i hi (le_refl n)]
        exact hall i hi
      have h2 : ((a.getD 0 0 : ℕ) : ℚ) - meanOf a n = 0 := by
        rw [← centered_getD a n 0 hn0 (le_refl n)]
        exact hall 0 hn0
      have : ((a.getD i 0 : ℕ) : ℚ) = ((a.getD 0 0 : ℕ) : ℚ) := by linarith
      exact_mod_cast this
    obtain ⟨i, hi, hne0⟩ := hex
    have hpos : 0 < denxSum (centered a n) :=
      denxSum_pos _ i (by rw [hlen]; exact hi) hne0
    have hone : offsetValue (centered a n) (centered a n) 0 = 1 :=
      offsetValue_self _ hpos
    have hfm : foldMax (centered a n) (centered a n) = 1 := by
      apply le_antisymm (foldMax_le_one _ _)
      rw [foldMax, ← hone]
      exact le_foldl_max _ _ 0
        (List.mem_range.mpr (by rw [hlen]; exact hn0)) 0
    rw [hfm]
    simp

theorem c2_self_correlation_witness :
    ((∀ i < List.length ([0, 1] : List ℕ),
        List.getD [0, 1] i 0 = List.getD [0, 1] 0 0) →
      GetCrossCorrelation [0, 1] [0, 1] = some 0) ∧
    (¬(∀ i < List.length ([0, 1] : List ℕ),
        List.getD [0, 1] i 0 = List.getD [0, 1] 0 0) →
      GetCrossCorrelation [0, 1] [0, 1] = some 1) :=
  c2_self_correlation [0, 1] (by decide)

theorem add_d_sigma (n d a : ℕ) (hd : d < n) (ha : a < n) :
    ((a + d) % n + (n - d) % n) % n = a := by
  rcases Nat.eq_zero_or_pos d with rfl | hdpos
  · simp [Nat.mod_eq_of_lt ha, Nat.mod_self]
  · have h1 : (n - d) % n = n - d := Nat.mod_eq_of_lt (by omega)
    rw [h1, Nat.mod_add_mod]
    have h2 : a + d + (n - d) = a + n := by omega
    rw [h2, Nat.add_mod_right, Nat.mod_eq_of_lt ha]

theorem sigma_add_d (n d a : ℕ) (hd : d < n) (ha : a < n) :
    ((a + (n - d) % n) % n + d) % n = a := by
  rcases Nat.eq_zero_or_pos d with rfl | hdpos
  · simp [Nat.mod_eq_of_lt ha, Nat.mod_self]
  · have h1 : (n - d) % n = n - d := Nat.mod_eq_of_lt (by omega)
    rw [h1, Nat.mod_add_mod]
    have h2 : a + (n - d) + d = a + n := by omega
    rw [h2, Nat.add_mod_right, Nat.mod_eq_of_lt ha]

theorem sum_cyclic (n e : ℕ) (he : e < n) (g : ℕ → ℚ) :
    ∑ i ∈ Finset.range n, g ((i + e) % n) = ∑ i ∈ Finset.range n, g i := by
  refine Finset.sum_nbij' (fun i => (i + e) % n)
    (fun j => (j + (n - e) % n) % n) ?_ ?_ ?_ ?_ ?_
  · intro a ha
    exact Finset.mem_range.mpr (Nat.mod_lt _ (by omega))
  · intro a ha
    exact Finset.mem_range.mpr (Nat.mod_lt _ (by omega))
  · intro a ha
    exact add_d_sigma n e a he (Finset.mem_range.mp ha)
  · intro a ha
    exact sigma_add_d n e a he (Finset.mem_range.mp ha)
  · intro a _
    rfl

theorem numSum_swap (x y : List ℚ) (n d : ℕ) (hx : x.length = n)
    (hy : y.length = n) (hd : d < n) :
    numSum y x d = numSum x y ((n - d) % n) := by
  rw [numSum, numSum, hx, hy, listSum_map_range, listSum_map_range]
  refine Finset.sum_nbij' (fun i => (i + d) % n)
    (fun j => (j + (n - d) % n) % n) ?_ ?_ ?_ ?_ ?_
  · intro a ha
    exact Finset.mem_range.mpr (Nat.mod_lt _ (by omega))
  · intro a ha
    exact Finset.mem_range.mpr (Nat.mod_lt _ (by omega))
  · intro a ha
    exact add_d_sigma n d a hd (Finset.mem_range.mp ha)
  · intro a ha
    exact sigma_add_d n d a hd (Finset.mem_range.mp ha)
  · intro a ha
    rw [add_d_sigma n d a hd (Finset.mem_range.mp ha), mul_comm]

theorem denySum_eq_denx_perm (x y : List ℚ) (n e : ℕ) (hx : x.length = n)
    (hy : y.length = n) (he : e < n) : denySum x y e = denxSum y := by
  rw [denySum, denxSum, hx, hy, listSum_map_range, listSum_map_range]
  exact sum_cyclic n e he (fun i => y.getD i 0 * y.getD i 0)

theorem offsetValue_swap (x y : List ℚ) (n d : ℕ) (hx : x.length = n)
    (hy : y.length = n) (hd : d < n) :
    offsetValue y x d = offsetValue x y ((n - d) % n) := by
  have hs : (n - d) % n < n := Nat.mod_lt _ (by omega)
  rw [offsetValue, offsetValue, numSum_swap x y n d hx hy hd,
    denySum_eq_denx_perm y x n d hy hx hd,
    denySum_eq_denx_perm x y n ((n - d) % n) hx hy hs,
    mul_comm (denxSum y) (denxSum x)]
  have hiff : (numSum x y ((n - d) % n) < 0 ∨ denxSum y = 0 ∨ denxSum x = 0) ↔
      (numSum x y ((n - d) % n) < 0 ∨ denxSum x = 0 ∨ denxSum y = 0) := by
    tauto
  exact if_congr hiff rfl rfl

theorem foldMax_swap_le (x y : List ℚ) (n : ℕ) (hx : x.length = n)
    (hy : y.length = n) : foldMax y x ≤ foldMax x y := by
  rw [foldMax, hy]
  refine foldl_max_le _ _ _ ?_ 0 (foldMax_nonneg x y)
  intro d hd
  rw [List.mem_range] at hd
  have hs : (n - d) % n < n := Nat.mod_lt _ (by omega)
  rw [offsetValue_swap x y n d hx hy hd, foldMax, hx]
  exact le_foldl_max _ _ _ (List.mem_range.mpr hs) 0

/-- C9: for byte sequences of equal length the cross-correlation is
symmetric: swapping the inputs maps the offset d term to the offset
(n - d) mod n term with the two denominators exchanged, so the maximum
over all offsets is unchanged. -/
theorem c9_symmetric_equal_length (a b : List ℕ) (_h : a.length = b.length) :
    GetCrossCorrelation a b = GetCrossCorrelation b a := by
  rw [getCrossCorrelation_eq_sqrt a b, getCrossCorrelation_eq_sqrt b a,
    Nat.min_comm b.length a.length]
  have ha : (centered a (min a.length b.length)).length =
      min a.length b.length := centered_length _ _ (Nat.min_le_left _ _)
  have hb : (centered b (min a.length b.length)).length =
      min a.length b.length := centered_length _ _ (Nat.min_le_right _ _)
  rw [le_antisymm
    (foldMax_swap_le (centered b (min a.length b.length))
      (centered a (min a.length b.length)) (min a.length b.length) hb ha)
    (foldMax_swap_le (centered a (min a.length b.length))
      (centered b (min a.length b.length)) (min a.length b.length) ha hb)]

theorem c9_symmetric_equal_length_witness :
    GetCrossCorrelation [1, 2] [3, 4] = GetCrossCorrelation [3, 4] [1, 2] :=
  c9_symmetric_equal_length [1, 2] [3, 4] rfl

/-- C7 counterexample: calling the kernel on two empty sequences
executes the two mean computations sumX / (float)length with length
equal to 0, so a division with zero denominator does occur, refuting
the claim that every division is guarded by a denominator check. -/
theorem c7_counterexample_zero_denominator :
    (0 : ℚ) ∈ crossCorrelationDivisors [] [] := by
  rw [crossCorrelationDivisors]
  simp

/-- C7 amended: the single division of the offset kernel is guarded by
the explicit denominator check, and the two mean divisions divide by
the common length; hence whenever the common length is positive, no
division during the call has zero denominator.  (For empty inputs the
unguarded mean divisions do divide by zero; the result is still 0
because the quotient never reaches it.) -/
theorem c7_divisions_nonzero_of_pos_length (a b : List ℕ)
    (h : 0 < min a.length b.length) :
    (0 : ℚ) ∉ crossCorrelationDivisors a b := by
  rw [crossCorrelationDivisors]
  intro hmem
  rcases List.mem_cons.mp hmem with h0 | hmem
  · have hz : min a.length b.length = 0 := by exact_mod_cast h0.symm
    omega
  rcases List.mem_cons.mp hmem with h0 | hmem
  · have hz : min a.length b.length = 0 := by exact_mod_cast h0.symm
    omega
  rw [List.mem_flatten] at hmem
  obtain ⟨l, hl, h0⟩ := hmem
  rw [List.mem_map] at hl
  obtain ⟨d, _, rfl⟩ := hl
  rw [offsetDivisors] at h0
  split at h0
  · cases h0
  · split at h0
    · cases h0
    · rename_i hguard
      push_neg at hguard
      obtain ⟨-, hdx, hdy⟩ := hguard
      rw [List.mem_singleton] at h0
      exact mul_ne_zero hdx hdy h0.symm

theorem c7_divisions_nonzero_witness :
    (0 : ℚ) ∉ crossCorrelationDivisors [0, 1] [2, 3] :=
  c7_divisions_nonzero_of_pos_length [0, 1] [2, 3] (by decide)

/-- Fuel-driven binary digit sum: adds the lowest fuel bits of v.  The
fuel makes the recursion structural, so concrete instances reduce. -/
def popcountAux : ℕ → ℕ → ℕ
  | 0, _ => 0
  | fuel + 1, v => v % 2 + popcountAux fuel (v / 2)

/-- The population count of a 64-bit word: the number of set bits among
bits 0..63.  For v < 2 ^ 64 this is the number of set bits of v. -/
def popcount (v : ℕ) : ℕ :=
  popcountAux 64 v

/-- Modelled from the spec: the hardware population-count intrinsic
(__builtin_popcountll on the x86-64 POPCNT path, absent from the
repository sources) returns the population count of its 64-bit
argument. -/
def builtinPopcount (v : ℕ) : ℕ :=
  popcount (v % 2 ^ 64)

/-- Line 123 of the source: v = v - ((v >> 1) & 0x5555555555555555). -/
def swarStep1 (v : ℕ) : ℕ :=
  v - ((v >>> 1) &&& 0x5555555555555555)

/-- Line 124 of the source:
v = (v & 0x3333333333333333) + ((v >> 2) & 0x3333333333333333). -/
def swarStep2 (v : ℕ) : ℕ :=
  (v &&& 0x3333333333333333) + ((v >>> 2) &&& 0x3333333333333333)

/-- First half of line 125: (v + (v >> 4)) & 0xF0F0F0F0F0F0F0F. -/
def swarStep3 (v : ℕ) : ℕ :=
  (v + (v >>> 4)) &&& 0xF0F0F0F0F0F0F0F

/-- CrossCorrelation::GetHammingDistanceCore, software (SWAR) path:
the three mask steps, then the byte-summing multiply (which overflows
in uint64, modelled by the explicit mod 2 ^ 64) and the shift by 56. -/
def GetHammingDistanceCore (v : ℕ) : ℕ :=
  (swarStep3 (swarStep2 (swarStep1 v)) * 0x101010101010101 % 2 ^ 64) >>> 56

/-- CrossCorrelation::GetHammingDistance(uint64_t, uint64_t): the
population count of the XOR of the two words. -/
def GetHammingDistanceXor (x y : ℕ) : ℕ :=
  GetHammingDistanceCore (x ^^^ y)

/-- The number of bit positions (among the 64 bits of a word) where x
and y differ. -/
def differingBits (x y : ℕ) : ℕ :=
  ((Finset.range 64).filter (fun i => x.testBit i ≠ y.testBit i)).card

/-- Map a function over the base-4 digits of a natural number. -/
def dmap4 (f : ℕ → ℕ) : ℕ → ℕ
  | 0 => 0
  | v + 1 => f ((v + 1) % 4) + 4 * dmap4 f ((v + 1) / 4)
decreasing_by exact Nat.div_lt_self (Nat.succ_pos v) (by omega)

/-- Map a function over the base-16 digits of a natural number. -/
def dmap16 (f : ℕ → ℕ) : ℕ → ℕ
  | 0 => 0
  | v + 1 => f ((v + 1) % 16) + 16 * dmap16 f ((v + 1) / 16)
decreasing_by exact Nat.div_lt_self (Nat.succ_pos v) (by omega)

/-- Map a function over the base-256 digits of a natural number. -/
def dmap256 (f : ℕ → ℕ) : ℕ → ℕ
  | 0 => 0
  | v + 1 => f ((v + 1) % 256) + 256 * dmap256 f ((v + 1) / 256)
decreasing_by exact Nat.div_lt_self (Nat.succ_pos v) (by omega)

/-- The 2-bit-period mask 0101...01 on 2k bits. -/
def mask5 : ℕ → ℕ
  | 0 => 0
  | k + 1 => 4 * mask5 k + 1

/-- The 4-bit-period mask 0011...0011 on 4k bits. -/
def mask3 : ℕ → ℕ
  | 0 => 0
  | k + 1 => 16 * mask3 k + 3

/-- The 8-bit-period mask 00001111... on 8k bits. -/
def maskF : ℕ → ℕ
  | 0 => 0
  | k + 1 => 256 * maskF k + 15

theorem mask5_32 : mask5 32 = 0x5555555555555555 := by decide
theorem mask3_16 : mask3 16 = 0x3333333333333333 := by decide
theorem maskF_8 : maskF 8 = 0xF0F0F0F0F0F0F0F := by decide

theorem dmap4_unfold (f : ℕ → ℕ) (hf : f 0 = 0) (v : ℕ) :
    dmap4 f v = f (v % 4) + 4 * dmap4 f (v / 4) := by
  cases v with
  | zero => simp [dmap4, hf]
  | succ w => simp [dmap4]

theorem dmap16_unfold (f : ℕ → ℕ) (hf : f 0 = 0) (v : ℕ) :
    dmap16 f v = f (v % 16) + 16 * dmap16 f (v / 16) := by
  cases v with
  | zero => simp [dmap16, hf]
  | succ w => simp [dmap16]

theorem dmap256_unfold (f : ℕ → ℕ) (hf : f 0 = 0) (v : ℕ) :
    dmap256 f v = f (v % 256) + 256 * dmap256 f (v / 256) := by
  cases v with
  | zero => simp [dmap256, hf]
  | succ w => simp [dmap256]

theorem land_split (x y : ℕ) :
    x &&& y = x % 2 * (y % 2) + 2 * (x / 2 &&& y / 2) := by
  have hprod : x % 2 * (y % 2) < 2 := by
    have hx := Nat.mod_two_eq_zero_or_one x
    have hy := Nat.mod_two_eq_zero_or_one y
    rcases hx with hx | hx <;> rcases hy with hy | hy <;> rw [hx, hy] <;> omega
  apply Nat.eq_of_testBit_eq
  intro i
  cases i with
  | zero =>
    rw [Nat.testBit_and, Nat.testBit_zero, Nat.testBit_zero, Nat.testBit_zero]
    have hmod : (x % 2 * (y % 2) + 2 * (x / 2 &&& y / 2)) % 2 = x % 2 * (y % 2) := by
      omega
    rw [hmod]
    have hx := Nat.mod_two_eq_zero_or_one x
    have hy := Nat.mod_two_eq_zero_or_one y
    rcases hx with hx | hx <;> rcases hy with hy | hy <;> rw [hx, hy] <;> rfl
  | succ i =>
    rw [Nat.testBit_and, Nat.testBit_add_one, Nat.testBit_add_one,
      Nat.testBit_add_one]
    have hdiv : (x % 2 * (y % 2) + 2 * (x / 2 &&& y / 2)) / 2 = x / 2 &&& y / 2 := by
      omega
    rw [hdiv, Nat.testBit_and]

theorem land_split_pow (w x y : ℕ) :
    x &&& y = ((x % 2 ^ w) &&& (y % 2 ^ w)) + 2 ^ w * (x / 2 ^ w &&& y / 2 ^ w) := by
  induction w generalizing x y with
  | zero => simp only [pow_zero, Nat.mod_one, Nat.div_one, Nat.zero_and,
      zero_add, one_mul]
  | succ w ih =>
    have hpow : (2 : ℕ) ^ (w + 1) = 2 * 2 ^ w := by ring
    have hxm : x % 2 ^ (w + 1) % 2 = x % 2 := Nat.mod_mod_of_dvd x ⟨2 ^ w, hpow⟩
    have hym : y % 2 ^ (w + 1) % 2 = y % 2 := Nat.mod_mod_of_dvd y ⟨2 ^ w, hpow⟩
    have hxd : x % 2 ^ (w + 1) / 2 = x / 2 % 2 ^ w := by
      rw [hpow, Nat.mod_mul_right_div_self]
    have hyd : y % 2 ^ (w + 1) / 2 = y / 2 % 2 ^ w := by
      rw [hpow, Nat.mod_mul_right_div_self]
    have hxq : x / 2 ^ (w + 1) = x / 2 / 2 ^ w := by
      rw [Nat.div_div_eq_div_mul, ← hpow]
    have hyq : y / 2 ^ (w + 1) = y / 2 / 2 ^ w := by
      rw [Nat.div_div_eq_div_mul, ← hpow]
    rw [land_split x y, ih (x / 2) (y / 2),
      land_split (x % 2 ^ (w + 1)) (y % 2 ^ (w + 1)), hxm, hym, hxd, hyd,
      hxq, hyq, hpow]
    ring

theorem land_three (x : ℕ) : x &&& 3 = x % 4 := by
  simpa using Nat.and_pow_two_sub_one_eq_mod x 2

theorem land_fifteen (x : ℕ) : x &&& 15 = x % 16 := by
  simpa using Nat.and_pow_two_sub_one_eq_mod x 4

theorem step1_land (k : ℕ) : ∀ v, v < 4 ^ k →
    (v / 2) &&& mask5 k = dmap4 (fun d => d / 2) v := by
  induction k with
  | zero =>
    intro v hv
    have h1 : (4 : ℕ) ^ 0 = 1 := pow_zero 4
    have : v = 0 := by omega
    subst this
    simp [mask5, dmap4]
  | succ k ih =>
    intro v hv
    rcases Nat.eq_zero_or_pos v with rfl | hvpos
    · simp [mask5, dmap4]
    have hq : v / 4 < 4 ^ k := Nat.div_lt_of_lt_mul (by rw [← pow_succ']; exact hv)
    have hm : mask5 (k + 1) = 4 * mask5 k + 1 := rfl
    have hsplit := land_split (v / 2) (4 * mask5 k + 1)
    have e1 : v / 2 % 2 = v % 4 / 2 := by omega
    have e2 : (4 * mask5 k + 1) % 2 = 1 := by omega
    have e3 : v / 2 / 2 = v / 4 := by omega
    have e4 : (4 * mask5 k + 1) / 2 = 2 * mask5 k := by omega
    rw [e1, e2, e3, e4, mul_one] at hsplit
    have hsplit2 := land_split (v / 4) (2 * mask5 k)
    have e5 : 2 * mask5 k % 2 = 0 := by omega
    have e6 : 2 * mask5 k / 2 = mask5 k := by omega
    rw [e5, e6, mul_zero, zero_add] at hsplit2
    rw [hm, hsplit, hsplit2, ih (v / 4) hq]
    simp only [dmap4_unfold (fun d => d / 2) (by simp) v]
    ring

theorem dmap4_pos_unfold (f : ℕ → ℕ) (v : ℕ) (hv : v ≠ 0) :
    dmap4 f v = f (v % 4) + 4 * dmap4 f (v / 4) := by
  cases v with
  | zero => exact absurd rfl hv
  | succ w => simp [dmap4]

theorem dmap4_le (f : ℕ → ℕ) (hf : ∀ d, f d ≤ d) (v : ℕ) : dmap4 f v ≤ v := by
  induction v using Nat.strong_induction_on with
  | _ v ih =>
    rcases Nat.eq_zero_or_pos v with rfl | hv
    · simp [dmap4]
    have h4 : v / 4 < v := Nat.div_lt_self hv (by omega)
    have hrec := ih (v / 4) h4
    have hd := hf (v % 4)
    rw [dmap4_pos_unfold f v (by omega)]
    omega

theorem dmap4_sub (v : ℕ) :
    v - dmap4 (fun d => d / 2) v = dmap4 (fun d => d / 2 + d % 2) v := by
  induction v using Nat.strong_induction_on with
  | _ v ih =>
    rcases Nat.eq_zero_or_pos v with rfl | hv
    · simp [dmap4]
    have h4 : v / 4 < v := Nat.div_lt_self hv (by omega)
    have hrec := ih (v / 4) h4
    have hle : dmap4 (fun d => d / 2) (v / 4) ≤ v / 4 :=
      dmap4_le _ (fun d => Nat.div_le_self d 2) (v / 4)
    simp only [dmap4_unfold (fun d => d / 2) (by simp) v,
      dmap4_unfold (fun d => d / 2 + d % 2) (by simp) v]
    omega

theorem step1_eq (k v : ℕ) (hv : v < 4 ^ k) :
    v - ((v / 2) &&& mask5 k) = dmap4 (fun d => d / 2 + d % 2) v := by
  rw [step1_land k v hv]
  exact dmap4_sub v

theorem swarStep1_eq (v : ℕ) (hv : v < 2 ^ 64) :
    swarStep1 v = dmap4 (fun d => d / 2 + d % 2) v := by
  rw [swarStep1, Nat.shiftRight_eq_div_pow, pow_one,
    show (0x5555555555555555 : ℕ) = mask5 32 from mask5_32.symm]
  exact step1_eq 32 v (by norm_num at hv ⊢; omega)

theorem popcount_zero : popcount 0 = 0 := rfl

theorem popcount_nibble : ∀ r < 16, popcount r =
    (r % 4 / 2 + r % 4 % 2) + (r / 4 / 2 + r / 4 % 2) := by decide

theorem step2a (k : ℕ) : ∀ v, v < 16 ^ k →
    v &&& mask3 k = dmap16 (fun d => d % 4) v := by
  induction k with
  | zero =>
    intro v hv
    have h1 : (16 : ℕ) ^ 0 = 1 := pow_zero 16
    have : v = 0 := by omega
    subst this
    simp [mask3, dmap16]
  | succ k ih =>
    intro v hv
    rcases Nat.eq_zero_or_pos v with rfl | hvpos
    · simp [mask3, dmap16]
    have hq : v / 16 < 16 ^ k := Nat.div_lt_of_lt_mul (by rw [← pow_succ']; exact hv)
    have hm : mask3 (k + 1) = 16 * mask3 k + 3 := rfl
    have hsplit := land_split_pow 4 v (16 * mask3 k + 3)
    have h16 : (2 : ℕ) ^ 4 = 16 := by norm_num
    rw [h16] at hsplit
    have e1 : (16 * mask3 k + 3) % 16 = 3 := by omega
    have e2 : (16 * mask3 k + 3) / 16 = mask3 k := by omega
    rw [e1, e2, land_three] at hsplit
    rw [hm, hsplit, ih (v / 16) hq]
    simp only [dmap16_unfold (fun d => d % 4) (by simp) v]

theorem step2b (k : ℕ) : ∀ v, v < 16 ^ k →
    (v / 4) &&& mask3 k = dmap16 (fun d => d / 4) v := by
  induction k with
  | zero =>
    intro v hv
    have h1 : (16 : ℕ) ^ 0 = 1 := pow_zero 16
    have : v = 0 := by omega
    subst this
    simp [mask3, dmap16]
  | succ k ih =>
    intro v hv
    rcases Nat.eq_zero_or_pos v with rfl | hvpos
    · simp [mask3, dmap16]
    have hq : v / 16 < 16 ^ k := Nat.div_lt_of_lt_mul (by rw [← pow_succ']; exact hv)
    have hm : mask3 (k + 1) = 16 * mask3 k + 3 := rfl
    have hsplit := land_split_pow 4 (v / 4) (16 * mask3 k + 3)
    have h16 : (2 : ℕ) ^ 4 = 16 := by norm_num
    rw [h16] at hsplit
    have e1 : (16 * mask3 k + 3) % 16 = 3 := by omega
    have e2 : (16 * mask3 k + 3) / 16 = mask3 k := by omega
    rw [e1, e2, land_three] at hsplit
    have e3 : v / 4 % 16 % 4 = v % 16 / 4 := by omega
    have e4 : v / 4 / 16 = v / 16 / 4 := by omega
    rw [e3, e4] at hsplit
    rw [hm, hsplit, ih (v / 16) hq]
    simp only [dmap16_unfold (fun d => d / 4) (by simp) v]

theorem dmap16_pos_unfold (f : ℕ → ℕ) (v : ℕ) (hv : v ≠ 0) :
    dmap16 f v = f (v % 16) + 16 * dmap16 f (v / 16) := by
  cases v with
  | zero => exact absurd rfl hv
  | succ w => simp [dmap16]

theorem dmap16_add (f g : ℕ → ℕ) (v : ℕ) :
    dmap16 f v + dmap16 g v = dmap16 (fun d => f d + g d) v := by
  induction v using Nat.strong_induction_on with
  | _ v ih =>
    rcases Nat.eq_zero_or_pos v with rfl | hv
    · simp [dmap16]
    have h16 : v / 16 < v := Nat.div_lt_self hv (by omega)
    rw [dmap16_pos_unfold f v (by omega), dmap16_pos_unfold g v (by omega),
      dmap16_pos_unfold (fun d => f d + g d) v (by omega), ← ih (v / 16) h16]
    ring

theorem step2_eq (k v : ℕ) (hv : v < 16 ^ k) :
    (v &&& mask3 k) + ((v / 4) &&& mask3 k) =
      dmap16 (fun d => d % 4 + d / 4) v := by
  rw [step2a k v hv, step2b k v hv, dmap16_add]

theorem swarStep2_eq (v : ℕ) (hv : v < 2 ^ 64) :
    swarStep2 v = dmap16 (fun d => d % 4 + d / 4) v := by
  rw [swarStep2, Nat.shiftRight_eq_div_pow,
    show (2 : ℕ) ^ 2 = 4 from by norm_num,
    show (0x3333333333333333 : ℕ) = mask3 16 from mask3_16.symm]
  exact step2_eq 16 v (by norm_num at hv ⊢; omega)

theorem comp_4_16 (v : ℕ) :
    dmap16 (fun e => e % 4 + e / 4) (dmap4 (fun d => d / 2 + d % 2) v) =
      dmap16 popcount v := by
  induction v using Nat.strong_induction_on with
  | _ v ih =>
    rcases Nat.eq_zero_or_pos v with rfl | hv
    · simp [dmap4, dmap16]
    have h16 : v / 16 < v := Nat.div_lt_self hv (by omega)
    have hu : dmap4 (fun d => d / 2 + d % 2) v =
        v % 4 / 2 + v % 4 % 2 + 4 * (v / 4 % 4 / 2 + v / 4 % 4 % 2) +
          16 * dmap4 (fun d => d / 2 + d % 2) (v / 16) := by
      have hdd : v / 4 / 4 = v / 16 := by omega
      simp only [dmap4_unfold (fun d => d / 2 + d % 2) (by simp) v,
        dmap4_unfold (fun d => d / 2 + d % 2) (by simp) (v / 4), hdd]
      ring
    rw [hu]
    simp only [dmap16_unfold (fun e => e % 4 + e / 4) (by simp)
      (v % 4 / 2 + v % 4 % 2 + 4 * (v / 4 % 4 / 2 + v / 4 % 4 % 2) +
        16 * dmap4 (fun d => d / 2 + d % 2) (v / 16))]
    have e1 : (v % 4 / 2 + v % 4 % 2 + 4 * (v / 4 % 4 / 2 + v / 4 % 4 % 2) +
        16 * dmap4 (fun d => d / 2 + d % 2) (v / 16)) % 16 =
        v % 4 / 2 + v % 4 % 2 + 4 * (v / 4 % 4 / 2 + v / 4 % 4 % 2) := by omega
    have e2 : (v % 4 / 2 + v % 4 % 2 + 4 * (v / 4 % 4 / 2 + v / 4 % 4 % 2) +
        16 * dmap4 (fun d => d / 2 + d % 2) (v / 16)) / 16 =
        dmap4 (fun d => d / 2 + d % 2) (v / 16) := by omega
    rw [e1, e2, ih (v / 16) h16,
      dmap16_unfold popcount popcount_zero v]
    have hpn := popcount_nibble (v % 16) (Nat.mod_lt v (by omega))
    have i1 : v % 16 % 4 = v % 4 := by omega
    have i2 : v % 16 / 4 = v / 4 % 4 := by omega
    rw [i1, i2] at hpn
    omega

theorem swar12_eq (v : ℕ) (hv : v < 2 ^ 64) :
    swarStep2 (swarStep1 v) = dmap16 popcount v := by
  have hle : dmap4 (fun d => d / 2 + d % 2) v ≤ v :=
    dmap4_le _ (fun d => by omega) v
  rw [swarStep1_eq v hv, swarStep2_eq _ (by omega), comp_4_16 v]

theorem popcount_le_nibble : ∀ r < 16, popcount r ≤ 4 := by decide

set_option maxRecDepth 4000 in
theorem popcount_byte : ∀ r < 256,
    popcount r = popcount (r % 16) + popcount (r / 16) := by decide

set_option maxRecDepth 4000 in
theorem popcount_byte_le : ∀ r < 256, popcount r ≤ 8 := by decide

theorem dmap256_pos_unfold (f : ℕ → ℕ) (v : ℕ) (hv : v ≠ 0) :
    dmap256 f v = f (v % 256) + 256 * dmap256 f (v / 256) := by
  cases v with
  | zero => exact absurd rfl hv
  | succ w => simp [dmap256]

theorem step3_eq (k : ℕ) : ∀ v, v < 256 ^ k →
    (dmap16 popcount v + dmap16 popcount v / 16) &&& maskF k =
      dmap256 popcount v := by
  induction k with
  | zero =>
    intro v hv
    have h1 : (256 : ℕ) ^ 0 = 1 := pow_zero 256
    have : v = 0 := by omega
    subst this
    simp [dmap16, dmap256, maskF]
  | succ k ih =>
    intro v hv
    rcases Nat.eq_zero_or_pos v with rfl | hvpos
    · simp [dmap16, dmap256, maskF]
    have hq : v / 256 < 256 ^ k :=
      Nat.div_lt_of_lt_mul (by rw [← pow_succ']; exact hv)
    have ha : popcount (v % 16) ≤ 4 := popcount_le_nibble _ (by omega)
    have hb : popcount (v / 16 % 16) ≤ 4 := popcount_le_nibble _ (by omega)
    have hdd : v / 16 / 16 = v / 256 := by omega
    have hw : dmap16 popcount v =
        popcount (v % 16) + 16 * popcount (v / 16 % 16) +
          256 * dmap16 popcount (v / 256) := by
      rw [dmap16_unfold popcount popcount_zero v,
        dmap16_unfold popcount popcount_zero (v / 16), hdd]
      ring
    have hWlow : dmap16 popcount (v / 256) % 16 ≤ 4 := by
      have h5 := popcount_le_nibble (v / 256 % 16) (by omega)
      have h6 := dmap16_unfold popcount popcount_zero (v / 256)
      omega
    have hsum : dmap16 popcount v + dmap16 popcount v / 16 =
        popcount (v % 16) + popcount (v / 16 % 16) +
          16 * (popcount (v / 16 % 16) + dmap16 popcount (v / 256) % 16) +
          256 * (dmap16 popcount (v / 256) + dmap16 popcount (v / 256) / 16) := by
      omega
    have hsplit := land_split_pow 8
      (popcount (v % 16) + popcount (v / 16 % 16) +
        16 * (popcount (v / 16 % 16) + dmap16 popcount (v / 256) % 16) +
        256 * (dmap16 popcount (v / 256) + dmap16 popcount (v / 256) / 16))
      (256 * maskF k + 15)
    have h256 : (2 : ℕ) ^ 8 = 256 := by norm_num
    rw [h256] at hsplit
    have e1 : (popcount (v % 16) + popcount (v / 16 % 16) +
        16 * (popcount (v / 16 % 16) + dmap16 popcount (v / 256) % 16) +
        256 * (dmap16 popcount (v / 256) + dmap16 popcount (v / 256) / 16)) % 256 =
        popcount (v % 16) + popcount (v / 16 % 16) +
          16 * (popcount (v / 16 % 16) + dmap16 popcount (v / 256) % 16) := by
      omega
    have e2 : (popcount (v % 16) + popcount (v / 16 % 16) +
        16 * (popcount (v / 16 % 16) + dmap16 popcount (v / 256) % 16) +
        256 * (dmap16 popcount (v / 256) + dmap16 popcount (v / 256) / 16)) / 256 =
        dmap16 popcount (v / 256) + dmap16 popcount (v / 256) / 16 := by
      omega
    have e3 : (256 * maskF k + 15) % 256 = 15 := by omega
    have e4 : (256 * maskF k + 15) / 256 = maskF k := by omega
    rw [e1, e2, e3, e4, land_fifteen] at hsplit
    have e5 : (popcount (v % 16) + popcount (v / 16 % 16) +
        16 * (popcount (v / 16 % 16) + dmap16 popcount (v / 256) % 16)) % 16 =
        popcount (v % 16) + popcount (v / 16 % 16) := by
      omega
    rw [e5] at hsplit
    rw [show maskF (k + 1) = 256 * maskF k + 15 from rfl, hsum, hsplit,
      ih (v / 256) hq, dmap256_unfold popcount popcount_zero v]
    have hpb := popcount_byte (v % 256) (by omega)
    have i1 : v % 256 % 16 = v % 16 := by omega
    have i2 : v % 256 / 16 = v / 16 % 16 := by omega
    rw [i1, i2] at hpb
    omega

theorem swar123_eq (v : ℕ) (hv : v < 2 ^ 64) :
    swarStep3 (swarStep2 (swarStep1 v)) = dmap256 popcount v := by
  rw [swar12_eq v hv, swarStep3, Nat.shiftRight_eq_div_pow,
    show (2 : ℕ) ^ 4 = 16 from by norm_num,
    show (0xF0F0F0F0F0F0F0F : ℕ) = maskF 8 from maskF_8.symm]
  exact step3_eq 8 v (by norm_num at hv ⊢; omega)

theorem popcountAux_le_self : ∀ fuel v : ℕ, popcountAux fuel v ≤ v := by
  intro fuel
  induction fuel with
  | zero => intro v; exact Nat.zero_le v
  | succ f ih =>
    intro v
    have := ih (v / 2)
    simp only [popcountAux]
    omega

theorem popcountAux_le_fuel : ∀ fuel v : ℕ, popcountAux fuel v ≤ fuel := by
  intro fuel
  induction fuel with
  | zero => intro v; exact le_refl 0
  | succ f ih =>
    intro v
    have := ih (v / 2)
    simp only [popcountAux]
    omega

theorem popcount_le_self (v : ℕ) : popcount v ≤ v :=
  popcountAux_le_self 64 v

theorem popcount_le_64 (v : ℕ) : popcount v ≤ 64 :=
  popcountAux_le_fuel 64 v

theorem popcountAux_zero_val : ∀ fuel, popcountAux fuel 0 = 0 := by
  intro fuel
  induction fuel with
  | zero => rfl
  | succ f ih => simp only [popcountAux, Nat.zero_mod, Nat.zero_div, ih]

theorem popcountAux_add (a b : ℕ) : ∀ v,
    popcountAux (a + b) v = popcountAux a v + popcountAux b (v / 2 ^ a) := by
  induction a with
  | zero =>
    intro v
    simp [popcountAux]
  | succ a ih =>
    intro v
    have h1 : a + 1 + b = a + b + 1 := by omega
    rw [h1]
    simp only [popcountAux]
    rw [ih (v / 2)]
    have h2 : v / 2 / 2 ^ a = v / 2 ^ (a + 1) := by
      rw [Nat.div_div_eq_div_mul, ← pow_succ']
    rw [h2]
    ring

theorem popcountAux_mod : ∀ (f v : ℕ), popcountAux f (v % 2 ^ f) = popcountAux f v := by
  intro f
  induction f with
  | zero => intro v; rfl
  | succ f ih =>
    intro v
    have hpow : (2 : ℕ) ^ (f + 1) = 2 * 2 ^ f := by ring
    have h1 : v % 2 ^ (f + 1) % 2 = v % 2 := Nat.mod_mod_of_dvd v ⟨2 ^ f, hpow⟩
    have h2 : v % 2 ^ (f + 1) / 2 = v / 2 % 2 ^ f := by
      rw [hpow, Nat.mod_mul_right_div_self]
    simp only [popcountAux]
    rw [h1, h2, ih (v / 2)]

theorem popcountAux_fuel_ext (f e v : ℕ) (hv : v < 2 ^ f) :
    popcountAux (f + e) v = popcountAux f v := by
  rw [popcountAux_add f e v, Nat.div_eq_of_lt hv, popcountAux_zero_val e]
  omega

theorem popcountAux_byte (w : ℕ) : popcountAux 8 w = popcount (w % 256) := by
  have h1 : popcountAux 8 (w % 2 ^ 8) = popcountAux 8 w := popcountAux_mod 8 w
  have h2 : popcountAux (8 + 56) (w % 2 ^ 8) = popcountAux 8 (w % 2 ^ 8) :=
    popcountAux_fuel_ext 8 56 (w % 2 ^ 8) (Nat.mod_lt w (by norm_num))
  have h4 : popcount (w % 256) = popcountAux 64 (w % 256) := rfl
  have h3 : (2 : ℕ) ^ 8 = 256 := by norm_num
  rw [h4, show (64 : ℕ) = 8 + 56 from rfl, ← h3, h2, h1]

theorem popcountAux_blocks : ∀ (k v : ℕ),
    popcountAux (8 * k) v = ∑ i ∈ Finset.range k, popcount (v / 256 ^ i % 256) := by
  intro k
  induction k with
  | zero => intro v; rfl
  | succ k ih =>
    intro v
    have h1 : 8 * (k + 1) = 8 + 8 * k := by omega
    rw [h1, popcountAux_add 8 (8 * k) v, ih (v / 2 ^ 8), popcountAux_byte v]
    have h3 : (2 : ℕ) ^ 8 = 256 := by norm_num
    rw [h3]
    rw [Finset.sum_range_succ' (fun i => popcount (v / 256 ^ i % 256)) k]
    have h4 : ∀ i, v / 256 / 256 ^ i = v / 256 ^ (i + 1) := by
      intro i
      rw [Nat.div_div_eq_div_mul, ← pow_succ']
    have h5 : (∑ i ∈ Finset.range k, popcount (v / 256 / 256 ^ i % 256)) =
        ∑ i ∈ Finset.range k, popcount (v / 256 ^ (i + 1) % 256) := by
      apply Finset.sum_congr rfl
      intro i _
      rw [h4 i]
    rw [h5]
    have h6 : v / 256 ^ 0 % 256 = v % 256 := by
      rw [pow_zero, Nat.div_one]
    rw [h6]
    ring

theorem popcount_split64 (v : ℕ) :
    popcount v =
      popcount (v % 256) + popcount (v / 256 % 256) +
      popcount (v / 65536 % 256) + popcount (v / 16777216 % 256) +
      popcount (v / 4294967296 % 256) + popcount (v / 1099511627776 % 256) +
      popcount (v / 281474976710656 % 256) +
      popcount (v / 72057594037927936 % 256) := by
  have h := popcountAux_blocks 8 v
  rw [show (8 : ℕ) * 8 = 64 from rfl] at h
  rw [popcount, h]
  rw [Finset.sum_range_succ, Finset.sum_range_succ, Finset.sum_range_succ,
    Finset.sum_range_succ, Finset.sum_range_succ, Finset.sum_range_succ,
    Finset.sum_range_succ, Finset.sum_range_succ, Finset.sum_range_zero]
  norm_num

theorem dmap256_le (f : ℕ → ℕ) (hf : ∀ d, f d ≤ d) (v : ℕ) :
    dmap256 f v ≤ v := by
  induction v using Nat.strong_induction_on with
  | _ v ih =>
    rcases Nat.eq_zero_or_pos v with rfl | hv
    · simp [dmap256]
    have h4 : v / 256 < v := Nat.div_lt_self hv (by omega)
    have hrec := ih (v / 256) h4
    have hd := hf (v % 256)
    rw [dmap256_pos_unfold f v (by omega)]
    omega

theorem dmap256_digit (f : ℕ → ℕ) (hf0 : f 0 = 0) (hf : ∀ d < 256, f d < 256) :
    ∀ (i v : ℕ), dmap256 f v / 256 ^ i % 256 = f (v / 256 ^ i % 256) := by
  intro i
  induction i with
  | zero =>
    intro v
    simp only [pow_zero, Nat.div_one]
    rw [dmap256_unfold f hf0 v]
    have := hf (v % 256) (by omega)
    omega
  | succ i ih =>
    intro v
    have hstep : dmap256 f v / 256 = dmap256 f (v / 256) := by
      rw [dmap256_unfold f hf0 v]
      have := hf (v % 256) (by omega)
      omega
    have hp : (256 : ℕ) ^ (i + 1) = 256 * 256 ^ i := pow_succ' 256 i
    calc dmap256 f v / 256 ^ (i + 1) % 256
        = dmap256 f v / 256 / 256 ^ i % 256 := by
          rw [hp, ← Nat.div_div_eq_div_mul]
      _ = dmap256 f (v / 256) / 256 ^ i % 256 := by rw [hstep]
      _ = f (v / 256 / 256 ^ i % 256) := ih (v / 256)
      _ = f (v / 256 ^ (i + 1) % 256) := by
          rw [Nat.div_div_eq_div_mul, ← hp]

theorem popcount_lt_256 : ∀ d < 256, popcount d < 256 := by
  intro d hd
  have := popcount_byte_le d hd
  omega

theorem mulK_extract (c0 c1 c2 c3 c4 c5 c6 c7 : ℕ)
    (h0 : c0 ≤ 8) (h1 : c1 ≤ 8) (h2 : c2 ≤ 8) (h3 : c3 ≤ 8)
    (h4 : c4 ≤ 8) (h5 : c5 ≤ 8) (h6 : c6 ≤ 8) (h7 : c7 ≤ 8) :
    (c0 + 256 * c1 + 65536 * c2 + 16777216 * c3 + 4294967296 * c4 +
      1099511627776 * c5 + 281474976710656 * c6 +
      72057594037927936 * c7) * 72340172838076673 %
      18446744073709551616 / 72057594037927936 =
      c0 + c1 + c2 + c3 + c4 + c5 + c6 + c7 := by
  have hA : (c0 + 256 * c1 + 65536 * c2 + 16777216 * c3 + 4294967296 * c4 +
      1099511627776 * c5 + 281474976710656 * c6 +
      72057594037927936 * c7) * 72340172838076673 =
      (c0 + 256 * (c0 + c1) + 65536 * (c0 + c1 + c2) +
        16777216 * (c0 + c1 + c2 + c3) +
        4294967296 * (c0 + c1 + c2 + c3 + c4) +
        1099511627776 * (c0 + c1 + c2 + c3 + c4 + c5) +
        281474976710656 * (c0 + c1 + c2 + c3 + c4 + c5 + c6) +
        72057594037927936 * (c0 + c1 + c2 + c3 + c4 + c5 + c6 + c7)) +
      18446744073709551616 *
        ((c1 + c2 + c3 + c4 + c5 + c6 + c7) +
          256 * (c2 + c3 + c4 + c5 + c6 + c7) +
          65536 * (c3 + c4 + c5 + c6 + c7) +
          16777216 * (c4 + c5 + c6 + c7) +
          4294967296 * (c5 + c6 + c7) +
          1099511627776 * (c6 + c7) +
          281474976710656 * c7) := by
    ring
  rw [hA, Nat.add_mul_mod_self_left]
  have hAlt : c0 + 256 * (c0 + c1) + 65536 * (c0 + c1 + c2) +
      16777216 * (c0 + c1 + c2 + c3) +
      4294967296 * (c0 + c1 + c2 + c3 + c4) +
      1099511627776 * (c0 + c1 + c2 + c3 + c4 + c5) +
      281474976710656 * (c0 + c1 + c2 + c3 + c4 + c5 + c6) +
      72057594037927936 * (c0 + c1 + c2 + c3 + c4 + c5 + c6 + c7) <
      18446744073709551616 := by
    omega
  have hL : c0 + 256 * (c0 + c1) + 65536 * (c0 + c1 + c2) +
      16777216 * (c0 + c1 + c2 + c3) +
      4294967296 * (c0 + c1 + c2 + c3 + c4) +
      1099511627776 * (c0 + c1 + c2 + c3 + c4 + c5) +
      281474976710656 * (c0 + c1 + c2 + c3 + c4 + c5 + c6) <
      72057594037927936 := by
    omega
  rw [Nat.mod_eq_of_lt hAlt,
    show c0 + 256 * (c0 + c1) + 65536 * (c0 + c1 + c2) +
        16777216 * (c0 + c1 + c2 + c3) +
        4294967296 * (c0 + c1 + c2 + c3 + c4) +
        1099511627776 * (c0 + c1 + c2 + c3 + c4 + c5) +
        281474976710656 * (c0 + c1 + c2 + c3 + c4 + c5 + c6) +
        72057594037927936 * (c0 + c1 + c2 + c3 + c4 + c5 + c6 + c7) =
        72057594037927936 * (c0 + c1 + c2 + c3 + c4 + c5 + c6 + c7) +
        (c0 + 256 * (c0 + c1) + 65536 * (c0 + c1 + c2) +
          16777216 * (c0 + c1 + c2 + c3) +
          4294967296 * (c0 + c1 + c2 + c3 + c4) +
          1099511627776 * (c0 + c1 + c2 + c3 + c4 + c5) +
          281474976710656 * (c0 + c1 + c2 + c3 + c4 + c5 + c6)) from by ring,
    Nat.mul_add_div (by norm_num), Nat.div_eq_of_lt hL, add_zero]

set_option maxHeartbeats 2000000 in
theorem hammingCore_eq_popcount (v : ℕ) (hv : v < 2 ^ 64) :
    GetHammingDistanceCore v = popcount v := by
  rw [GetHammingDistanceCore, swar123_eq v hv, Nat.shiftRight_eq_div_pow]
  have hle : dmap256 popcount v ≤ v := dmap256_le popcount popcount_le_self v
  have hu : dmap256 popcount v < 2 ^ 64 := by omega
  have d0 := dmap256_digit popcount popcount_zero popcount_lt_256 0 v
  have d1 := dmap256_digit popcount popcount_zero popcount_lt_256 1 v
  have d2 := dmap256_digit popcount popcount_zero popcount_lt_256 2 v
  have d3 := dmap256_digit popcount popcount_zero popcount_lt_256 3 v
  have d4 := dmap256_digit popcount popcount_zero popcount_lt_256 4 v
  have d5 := dmap256_digit popcount popcount_zero popcount_lt_256 5 v
  have d6 := dmap256_digit popcount popcount_zero popcount_lt_256 6 v
  have d7 := dmap256_digit popcount popcount_zero popcount_lt_256 7 v
  norm_num at d0 d1 d2 d3 d4 d5 d6 d7 hu
  have b0 := popcount_byte_le (v % 256) (by omega)
  have b1 := popcount_byte_le (v / 256 % 256) (by omega)
  have b2 := popcount_byte_le (v / 65536 % 256) (by omega)
  have b3 := popcount_byte_le (v / 16777216 % 256) (by omega)
  have b4 := popcount_byte_le (v / 4294967296 % 256) (by omega)
  have b5 := popcount_byte_le (v / 1099511627776 % 256) (by omega)
  have b6 := popcount_byte_le (v / 281474976710656 % 256) (by omega)
  have b7 := popcount_byte_le (v / 72057594037927936 % 256) (by omega)
  have hdecomp : dmap256 popcount v =
      popcount (v % 256) + 256 * popcount (v / 256 % 256) +
      65536 * popcount (v / 65536 % 256) +
      16777216 * popcount (v / 16777216 % 256) +
      4294967296 * popcount (v / 4294967296 % 256) +
      1099511627776 * popcount (v / 1099511627776 % 256) +
      281474976710656 * popcount (v / 281474976710656 % 256) +
      72057594037927936 * popcount (v / 72057594037927936 % 256) := by
    omega
  rw [show (2 : ℕ) ^ 64 = 18446744073709551616 from by norm_num,
    show (2 : ℕ) ^ 56 = 72057594037927936 from by norm_num,
    popcount_split64 v, hdecomp]
  have hfin := mulK_extract (popcount (v % 256)) (popcount (v / 256 % 256))
    (popcount (v / 65536 % 256)) (popcount (v / 16777216 % 256))
    (popcount (v / 4294967296 % 256)) (popcount (v / 1099511627776 % 256))
    (popcount (v / 281474976710656 % 256))
    (popcount (v / 72057594037927936 % 256))
    b0 b1 b2 b3 b4 b5 b6 b7
  exact hfin

theorem popcountAux_eq_sum : ∀ (fuel v : ℕ),
    popcountAux fuel v = ∑ i ∈ Finset.range fuel, (if v.testBit i then 1 else 0) := by
  intro fuel
  induction fuel with
  | zero => intro v; rfl
  | succ f ih =>
    intro v
    rw [Finset.sum_range_succ' (fun i => if v.testBit i then 1 else 0) f]
    simp only [popcountAux]
    rw [ih (v / 2)]
    have h2 : (if v.testBit 0 then 1 else 0) = v % 2 := by
      rw [Nat.testBit_zero]
      rcases Nat.mod_two_eq_zero_or_one v with h | h <;> simp [h]
    have h3 : (∑ i ∈ Finset.range f, if (v / 2).testBit i then 1 else 0) =
        ∑ i ∈ Finset.range f, if v.testBit (i + 1) then 1 else 0 :=
      Finset.sum_congr rfl (fun i _ => by rw [Nat.testBit_div_two v i])
    omega

theorem popcount_eq_card (v : ℕ) :
    popcount v = ((Finset.range 64).filter (fun i => v.testBit i)).card := by
  rw [popcount, popcountAux_eq_sum, Finset.card_filter]

theorem popcount_xor_eq_differingBits (x y : ℕ) :
    popcount (x ^^^ y) = differingBits x y := by
  rw [popcount_eq_card, differingBits]
  congr 1
  apply Finset.filter_congr
  intro i _
  rw [Nat.testBit_xor]
  cases hx : x.testBit i <;> cases hy : y.testBit i <;> simp

/-- C3: for every 64-bit word the SWAR fallback of the Hamming
Distance Evaluator returns exactly the population count (the number of
set bits), hence agrees with the hardware-intrinsic path on every
64-bit input; consequently the XOR Hamming distance of two 64-bit
words equals the number of differing bit positions, which lies in
[0, 64]. -/
theorem c3_swar_is_popcount (v x y : ℕ) (hv : v < 2 ^ 64)
    (hx : x < 2 ^ 64) (hy : y < 2 ^ 64) :
    GetHammingDistanceCore v = popcount v ∧
    popcount v = ((Finset.range 64).filter (fun i => v.testBit i)).card ∧
    GetHammingDistanceCore v = builtinPopcount v ∧
    GetHammingDistanceXor x y = differingBits x y ∧
    GetHammingDistanceXor x y ≤ 64 := by
  have h1 := hammingCore_eq_popcount v hv
  have hb : builtinPopcount v = popcount v := by
    rw [builtinPopcount, Nat.mod_eq_of_lt hv]
  have hxor := hammingCore_eq_popcount (x ^^^ y) (Nat.xor_lt_two_pow hx hy)
  refine ⟨h1, popcount_eq_card v, by rw [h1, hb], ?_, ?_⟩
  · rw [GetHammingDistanceXor, hxor, popcount_xor_eq_differingBits]
  · rw [GetHammingDistanceXor, hxor]
    exact popcount_le_64 _

theorem c3_swar_is_popcount_witness :
    (GetHammingDistanceCore 12297829382473034410 = popcount 12297829382473034410 ∧
      popcount 12297829382473034410 =
        ((Finset.range 64).filter
          (fun i => Nat.testBit 12297829382473034410 i)).card ∧
      GetHammingDistanceCore 12297829382473034410 =
        builtinPopcount 12297829382473034410 ∧
      GetHammingDistanceXor 10 11 = differingBits 10 11 ∧
      GetHammingDistanceXor 10 11 ≤ 64) :=
  c3_swar_is_popcount 12297829382473034410 10 11 (by norm_num) (by norm_num)
    (by norm_num)
